import Mathlib

/-!
Verification of the knowledge-assistant repository (Obsidian RAG pipeline).

This file shallowly embeds the Python functions the claims are about:
strings are `String`/`List Char`, Python ints are `Int`/`Nat`, floats whose
exact values matter (RRF scores, retrieval scores) are modelled as `ℚ`,
fallible code returns `Except`/`Option`.  Each embedded definition carries a
comment naming the source function it translates.
-/

/-! ## Python string primitives

Python `str` helpers used throughout the repository, modelled over
`List Char`.  `isPySpace` covers the ASCII whitespace class recognised by
Python's `str.strip`/`str.split`/`\s` on the texts this repository handles. -/

def isPySpace (c : Char) : Bool :=
  c = ' ' || c = '\t' || c = '\n' || c = '\r' || c = '\x0b' || c = '\x0c'

/-- Python `s.strip()` (whitespace from both ends). -/
def stripWS (l : List Char) : List Char :=
  ((l.dropWhile isPySpace).reverse.dropWhile isPySpace).reverse

/-- Python `s.lstrip()` -- not used alone, but the building block above. -/
def lstripWS (l : List Char) : List Char := l.dropWhile isPySpace

/-- Python `s.strip(chars)`: remove characters of the set from both ends. -/
def stripChars (cs : List Char) (l : List Char) : List Char :=
  ((l.dropWhile (fun c => cs.contains c)).reverse.dropWhile
      (fun c => cs.contains c)).reverse

/-- Python `s.rstrip(chars)`: remove characters of the set from the right end. -/
def rstripChars (cs : List Char) (l : List Char) : List Char :=
  (l.reverse.dropWhile (fun c => cs.contains c)).reverse

/-- Substring test, Python `pat in s`. -/
def containsSub (pat l : List Char) : Bool :=
  l.tails.any (fun t => pat.isPrefixOf t)

/-- Python `sep.join(xs)`. -/
def joinSep (sep : List Char) : List (List Char) → List Char
  | [] => []
  | [x] => x
  | x :: y :: xs => x ++ sep ++ joinSep sep (y :: xs)

/-- Python `" ".join(xs)` on strings. -/
def joinSpace (xs : List (List Char)) : List Char := joinSep [' '] xs

/-- Scanner behind `pySplitWS`: `cur` holds the reversed current word. -/
def pySplitWSAux (cur : List Char) : List Char → List (List Char)
  | [] => if cur = [] then [] else [cur.reverse]
  | c :: cs =>
    if isPySpace c then
      if cur = [] then pySplitWSAux [] cs else cur.reverse :: pySplitWSAux [] cs
    else pySplitWSAux (c :: cur) cs

/-- Python `str.split()` with no argument: split on whitespace runs,
dropping empty pieces. -/
def pySplitWS (l : List Char) : List (List Char) := pySplitWSAux [] l

/-- Python `len(s.split())`, the word counter used by the chunker. -/
def count_words (l : List Char) : ℕ := (pySplitWS l).length

/-! ## C7 — LLM client URL normalization (`src/ka/llm.py`, `LLMClient.chat`) -/

/-- Embedding of the URL computation at the top of `LLMClient.chat`:
`base = cfg.base_url.strip().rstrip("/")`; strip a `"/chat/completions"`
suffix; append `"/v1"` unless the base ends with `"/v1"` or contains
`"/v1/"`; append `"/chat/completions"`. -/
def chatUrlL (base_url : List Char) : List Char :=
  let b0 := rstripChars ['/'] (stripWS base_url)
  let b1 := if ("/chat/completions".data).isSuffixOf b0
    then b0.take (b0.length - "/chat/completions".length) else b0
  let b2 := if !(("/v1".data).isSuffixOf b1) && !containsSub "/v1/".data b1
    then b1 ++ "/v1".data else b1
  b2 ++ "/chat/completions".data

/-- String-level wrapper of `chatUrlL`. -/
def chatUrl (base_url : String) : String := ⟨chatUrlL base_url.data⟩

/-! ## C9 — sources block (`src/ka/generator.py`, `sources_block`) -/

/-- RetrievalHit record from `src/ka/retriever.py` (the Python `section`
field is named `sect` here because `section` is a Lean keyword).  Scores are
modelled as `ℚ`. -/
structure RetrievalHit where
  score : ℚ
  chunk_id : String
  note_id : String
  title : String
  sect : String
  text : String
deriving DecidableEq, Repr

/-- One pass of Python `s.replace(c, r)` for a single-character pattern. -/
def replaceChar (c : Char) (r : List Char) : List Char → List Char
  | [] => []
  | x :: xs => if x = c then r ++ replaceChar c r xs else x :: replaceChar c r xs

/-- The escaping chain `".replace("&","&amp;").replace("<","&lt;").replace(">","&gt;")`
applied to each field in `sources_block`. -/
def escapeHtml (s : String) : String :=
  ⟨replaceChar '>' "&gt;".data (replaceChar '<' "&lt;".data
    (replaceChar '&' "&amp;".data s.data))⟩

/-- Python `"\n".join(lines)`. -/
def joinNL (xs : List String) : String := ⟨joinSep ['\n'] (xs.map String.data)⟩

/-- One line `f"{i}) {note_id} ({chunk_id}) — {title} → {section}"` of
`sources_block`, with the four fields escaped as in the source. -/
def sourcesLine (i : ℕ) (h : RetrievalHit) : String :=
  toString i ++ ") " ++ escapeHtml h.note_id ++ " (" ++ escapeHtml h.chunk_id ++
    ") — " ++ escapeHtml h.title ++ " → " ++ escapeHtml h.sect

/-- The `for i, h in enumerate(hits, start=1)` loop of `sources_block`. -/
def sourcesLinesFrom (i : ℕ) : List RetrievalHit → List String
  | [] => []
  | h :: hs => sourcesLine i h :: sourcesLinesFrom (i + 1) hs

/-- Embedding of `sources_block(hits, max_sources=10)`; the `max_sources`
parameter is unused by the source body and therefore omitted.  Note the
source seeds `lines = ["", "Источники:"]`, so the result starts with a
blank line. -/
def sources_block (hits : List RetrievalHit) : String :=
  if hits = [] then "" else joinNL ("" :: "Источники:" :: sourcesLinesFrom 1 hits)

/-! ## C8 — validation-set query derivation
(`src/scripts/make_validation_set.py`, `main`, lines 56-58) -/

/-- Embedding of the per-row query derivation:
`query = f"{title}. {section}".strip(". ").strip()`, then
`if len(query) < 8: query = title or section or (text[:80] if text else "query")`. -/
def deriveQuery (title sect text : String) : String :=
  let q : List Char := stripWS (stripChars ['.', ' '] ((title ++ ". " ++ sect).data))
  if q.length < 8 then
    if title ≠ "" then title
    else if sect ≠ "" then sect
    else if text ≠ "" then ⟨text.data.take 80⟩
    else "query"
  else ⟨q⟩

/-! ## C5, C10 — vector indexes (`src/ka/vector_index.py`) -/

/-- Index payload record (the per-chunk dict stored in the index; fields the
claims use).  The Python `section` key is named `sect`. -/
structure Payload where
  chunk_id : String
  note_id : String
  title : String
  sect : String
  text : String
deriving DecidableEq, Repr

/-- A numpy array: its shape plus flat (row-major) data; `ndim` is the shape
length.  Entries are modelled as `ℚ`. -/
structure NDArray where
  shape : List ℕ
  data : List ℚ
deriving DecidableEq, Repr

/-- Rows of a 2-D `NDArray` (`shape = [r, c]`). -/
def NDArray.toRows (v : NDArray) : List (List ℚ) :=
  (List.range (v.shape.getD 0 0)).map
    (fun i => (v.data.drop (i * v.shape.getD 1 0)).take (v.shape.getD 1 0))

/-- Model of `HnswIndex`: the fixed dimensionality, the
`internal_id -> payload` mapping (insertion-ordered) and `_next_id`.  The
`IndexConfig` fields and the native hnswlib graph are external state with no
bearing on the claims and are omitted. -/
structure HnswIndex where
  dim : ℕ
  payload : List (ℕ × Payload)
  next_id : ℕ
deriving DecidableEq, Repr

/-- Embedding of `HnswIndex.add`: reject when the vectors are not 2-D with
`shape[1] == dim`, or when the payload count differs from `shape[0]`;
otherwise assign ids `next_id, next_id+1, ...` and extend the payload map. -/
def HnswIndex.add (idx : HnswIndex) (vectors : NDArray) (payloads : List Payload) :
    Except String HnswIndex :=
  if vectors.shape.length ≠ 2 ∨ vectors.shape.getD 1 0 ≠ idx.dim then
    .error "Bad vectors shape"
  else if payloads.length ≠ vectors.shape.getD 0 0 then
    .error "vectors and payloads length mismatch"
  else
    .ok { dim := idx.dim
          payload := idx.payload ++ payloads.enum.map (fun ip => (idx.next_id + ip.1, ip.2))
          next_id := idx.next_id + vectors.shape.getD 0 0 }

/-- Model of `BruteForceIndex`: `_vectors` (None until the first add) and the
parallel `_payload` list. -/
structure BruteForceIndex where
  dim : ℕ
  vectors : Option (List (List ℚ))
  payload : List Payload
deriving DecidableEq, Repr

/-- `BruteForceIndex.__init__(dim)`. -/
def emptyBF (dim : ℕ) : BruteForceIndex := ⟨dim, none, []⟩

/-- Embedding of `BruteForceIndex.add`: same validation as `HnswIndex.add`,
then `vstack` the rows and extend the payload list. -/
def BruteForceIndex.add (idx : BruteForceIndex) (vectors : NDArray)
    (payloads : List Payload) : Except String BruteForceIndex :=
  if vectors.shape.length ≠ 2 ∨ vectors.shape.getD 1 0 ≠ idx.dim then
    .error "Bad vectors shape"
  else if payloads.length ≠ vectors.shape.getD 0 0 then
    .error "vectors and payloads length mismatch"
  else
    .ok { dim := idx.dim
          vectors := some (match idx.vectors with
            | none => vectors.toRows
            | some m => m ++ vectors.toRows)
          payload := idx.payload ++ payloads }

/-- Dot product `row @ q` (numpy requires equal lengths; `zip` models it on
the in-contract states). -/
def dotQ (row q : List ℚ) : ℚ := (row.zip q).foldl (fun acc p => acc + p.1 * p.2) 0

/-- Stable insertion (descending by key): used to model the
`argpartition` + `argsort(-scores)` top-k selection. -/
def insertDescBy (key : α → ℚ) (x : α) : List α → List α
  | [] => [x]
  | y :: ys => if key y ≤ key x then x :: y :: ys else y :: insertDescBy key x ys

/-- Stable sort, descending by key. -/
def sortDescBy (key : α → ℚ) : List α → List α
  | [] => []
  | x :: xs => insertDescBy key x (sortDescBy key xs)

/-- Embedding of `BruteForceIndex.search`: empty when no vectors or no
payloads; otherwise score every row by dot product, keep the
`min(k, n)` best indices (descending score; numpy's tie order among equal
scores is unspecified, modelled here as stable), and look each index up in
the payload list. -/
def BruteForceIndex.search (idx : BruteForceIndex) (q : List ℚ) (k : ℕ) :
    List (ℚ × Payload) :=
  match idx.vectors with
  | none => []
  | some rows =>
    if idx.payload = [] then [] else
    let scores := rows.map (fun r => dotQ r q)
    let kk := min k scores.length
    let sortedIdx := sortDescBy (fun i => scores.getD i 0) (List.range scores.length)
    (sortedIdx.take kk).filterMap
      (fun i => (idx.payload.get? i).map (fun p => (scores.getD i 0, p)))

/-- A failed `add` leaves the index unchanged (in the source, both
validation checks precede every mutation of `_vectors`/`_payload`, so an
exception escapes before any state change). -/
def addOrKeep (idx : BruteForceIndex) (v : NDArray) (ps : List Payload) :
    BruteForceIndex :=
  match idx.add v ps with
  | .ok idx2 => idx2
  | .error _ => idx

/-- A whole sequence of `add` calls (failures leave the state unchanged). -/
def applyAdds (idx : BruteForceIndex) (ops : List (NDArray × List Payload)) :
    BruteForceIndex :=
  ops.foldl (fun i op => addOrKeep i op.1 op.2) idx

/-- Number of stored vector rows. -/
def BruteForceIndex.nrows (idx : BruteForceIndex) : ℕ := (idx.vectors.getD []).length

/-! ## C4 — Reciprocal Rank Fusion (`src/ka/retriever.py`, `_rrf_fuse`) -/

/-- Association-list lookup, modelling Python dict indexing/`get`. -/
def alistGet (cid : String) : List (String × α) → Option α
  | [] => none
  | (k, v) :: rest => if k = cid then some v else alistGet cid rest

/-- Python `scores[cid] = scores.get(cid, 0.0) + delta` on an
insertion-ordered dict: an existing key keeps its position, a new key is
appended at the end. -/
def alistAddScore (cid : String) (delta : ℚ) : List (String × ℚ) → List (String × ℚ)
  | [] => [(cid, delta)]
  | (k, v) :: rest =>
    if k = cid then (k, v + delta) :: rest
    else (k, v) :: alistAddScore cid delta rest

/-- Python `if cid not in best_payload: best_payload[cid] = p`. -/
def alistSetIfAbsent (cid : String) (p : Payload) :
    List (String × Payload) → List (String × Payload)
  | [] => [(cid, p)]
  | (k, v) :: rest =>
    if k = cid then (k, v) :: rest
    else (k, v) :: alistSetIfAbsent cid p rest

/-- The inner `add(rank, p)` of `_rrf_fuse`: skip payloads with an empty
`chunk_id`; otherwise add `1 / (rrf_k + rank)` to the chunk's running score
and remember the first payload seen for the chunk. -/
def rrfAdd (kq : ℚ) (st : List (String × ℚ) × List (String × Payload))
    (rank : ℕ) (p : Payload) : List (String × ℚ) × List (String × Payload) :=
  if p.chunk_id = "" then st
  else (alistAddScore p.chunk_id (1 / (kq + rank)) st.1,
        alistSetIfAbsent p.chunk_id p st.2)

/-- `for i, (_, p) in enumerate(hits, start=rank): add(i, p)`. -/
def rrfAddAll (kq : ℚ) (st : List (String × ℚ) × List (String × Payload))
    (rank : ℕ) : List (ℚ × Payload) → List (String × ℚ) × List (String × Payload)
  | [] => st
  | h :: hs => rrfAddAll kq (rrfAdd kq st rank h.2) (rank + 1) hs

/-- Embedding of `_rrf_fuse(vec_hits, bm25_hits, rrf_k=60)`:
`rrf_k = max(1, int(rrf_k))`; both ranked lists contribute
`1/(rrf_k + rank)` (1-based rank) keyed by `chunk_id`; the score map is
sorted descending by score (Python's `sorted` is stable) and each chunk id
is resolved through `best_payload` (every key of the score map is also a key
of `best_payload`, so the lookup never fails). -/
def rrf_fuse (vec_hits bm25_hits : List (ℚ × Payload)) (rrf_k : ℤ) :
    List (ℚ × Payload) :=
  let kq : ℚ := (max 1 rrf_k : ℤ)
  let st1 := rrfAddAll kq ([], []) 1 vec_hits
  let st2 := rrfAddAll kq st1 1 bm25_hits
  let fused := sortDescBy (fun pr => pr.2) st2.1
  fused.filterMap (fun pr => (alistGet pr.1 st2.2).map (fun p => (pr.2, p)))

/-- Specification-side contribution of one ranked list to a chunk's RRF
score: the sum of `1/(kq + rank)` over the (1-based, starting at `rank`)
positions whose payload carries that `chunk_id`. -/
def listContribFrom (kq : ℚ) (cid : String) (rank : ℕ) :
    List (ℚ × Payload) → ℚ
  | [] => 0
  | h :: hs =>
    (if h.2.chunk_id = cid then 1 / (kq + rank) else 0) +
      listContribFrom kq cid (rank + 1) hs

/-- State invariant of the `_rrf_fuse` accumulators: score keys are
duplicate-free and non-empty, and every remembered payload is keyed by its
own (non-empty) `chunk_id`. -/
def RrfInv (st : List (String × ℚ) × List (String × Payload)) : Prop :=
  (st.1.map Prod.fst).Nodup ∧
  (∀ c ∈ st.1.map Prod.fst, c ≠ "") ∧
  (∀ x ∈ st.2, x.2.chunk_id = x.1 ∧ x.1 ≠ "")

/-- Example payload `A` from the RRF fusion spec example. -/
def rrfPayloadA : Payload := ⟨"A", "", "", "", ""⟩

/-- Example payload `B` from the RRF fusion spec example. -/
def rrfPayloadB : Payload := ⟨"B", "", "", "", ""⟩

/-- Example payload `C` from the RRF fusion spec example. -/
def rrfPayloadC : Payload := ⟨"C", "", "", "", ""⟩

/-! ## C2 — front-matter handling (`src/scripts/collect_obsidian.py`,
`split_frontmatter`) -/

/-- Result of `yaml.safe_load(fm_text)` as far as `split_frontmatter`
inspects it.  The source applies `or {}` (turning falsy results such as
`None`, `[]` or `""` into the empty mapping) and then an
`isinstance(data, dict)` check; every non-mapping outcome therefore
collapses to the empty mapping, so the model only distinguishes the parsed
mapping entries from "parsed successfully but not a mapping". -/
inductive YamlValue where
  | vdict (entries : List (String × String))
  | vnonDict
deriving DecidableEq, Repr

/-- Length of the leading whitespace run (`\s*`, ASCII classes). -/
def wsRunLen (l : List Char) : ℕ := (l.takeWhile isPySpace).length

/-- Indices of the `'\n'` characters inside the leading whitespace run, in
decreasing order: the greedy `\s*` of `^---\s*\n` first consumes the whole
run and then backtracks, so the mandatory `\n` is tried at the last newline
of the run first, then at each earlier newline in turn. -/
def nlCandidates (l : List Char) : List ℕ :=
  ((List.range (wsRunLen l)).filter (fun j => decide (l.get? j = some '\n'))).reverse

/-- Smallest index at which `pat` occurs in `l` (the lazy `(.*?)` of the
front-matter pattern stops at the first `\n---`). -/
def findSubIdx (pat l : List Char) : Option ℕ :=
  (List.range (l.length + 1)).find? (fun i => pat.isPrefixOf (l.drop i))

/-- Embedding of `FRONTMATTER_RE.match(text)` for
`^---\s*\n(.*?)\n---\s*\n?` with `re.DOTALL`: the text must start with
`---`; the greedy `\s*` plus mandatory `\n` place the end of the opening
delimiter at a newline of the following whitespace run, backtracking from
the last newline towards the first; for each such position the group runs
lazily up to the first `\n---` of the remaining suffix, and the whole match
succeeds at the first position admitting one (the trailing `\s*\n?` then
always matches, swallowing the whitespace run after the closing delimiter).
Returns `(front-matter group, text after the match)`. -/
def fmMatch (l : List Char) : Option (List Char × List Char) :=
  if "---".data.isPrefixOf l then
    let rest := l.drop 3
    (nlCandidates rest).findSome? (fun j =>
      let afterOpen := rest.drop (j + 1)
      match findSubIdx "\n---".data afterOpen with
      | none => none
      | some e =>
        let afterClose := afterOpen.drop (e + 4)
        some (afterOpen.take e, afterClose.drop (wsRunLen afterClose)))
  else none

/-- Embedding of `split_frontmatter(text)`, parameterised by the external
YAML parser (`yaml.safe_load`; `none` models a raised `yaml.YAMLError`).
On a parse error the source resets `body = text`; on a successful parse the
body stays `text[m.end():]` whether or not the value was a mapping. -/
def split_frontmatter (safeLoad : List Char → Option YamlValue) (text : List Char) :
    List (String × String) × List Char :=
  match fmMatch text with
  | none => ([], text)
  | some (fm, body) =>
    match safeLoad fm with
    | none => ([], text)
    | some (.vdict d) => (d, body)
    | some .vnonDict => ([], body)

/-! ## C3 — agent loop (`src/ka/agent.py`) -/

/-- A tool-call argument value (`args: Dict[str, object]` holds strings and
ints in this program). -/
inductive ArgVal where
  | str (s : String)
  | int (i : ℤ)
deriving DecidableEq, Repr

/-- `ToolCall(name, args)` with an insertion-ordered args dict. -/
structure ToolCall where
  name : String
  args : List (String × ArgVal)
deriving DecidableEq, Repr

/-- Python `d[key] = v` on an insertion-ordered dict. -/
def alistSetArg (key : String) (v : ArgVal) : List (String × ArgVal) → List (String × ArgVal)
  | [] => [(key, v)]
  | (k0, w) :: rest =>
    if k0 = key then (k0, v) :: rest else (k0, w) :: alistSetArg key v rest

/-- `str(args[key])` (the planner always stores the argument, so the absent
case never fires on reachable states). -/
def argAsString (o : Option ArgVal) : String :=
  match o with
  | some (.str s) => s
  | some (.int i) => toString i
  | none => ""

/-- `int(args.get(key, default))` (the stored value is an int on reachable
states). -/
def argAsInt (o : Option ArgVal) (dflt : ℤ) : ℤ :=
  match o with
  | some (.int i) => i
  | some (.str _) => dflt
  | none => dflt

/-- Python `str.lower()` restricted to the alphabets this repository
processes (ASCII plus Cyrillic А-Я and Ё). -/
def pyLower (c : Char) : Char :=
  if 0x41 ≤ c.toNat ∧ c.toNat ≤ 0x5a then Char.ofNat (c.toNat + 0x20)
  else if 0x410 ≤ c.toNat ∧ c.toNat ≤ 0x42f then Char.ofNat (c.toNat + 0x20)
  else if c.toNat = 0x401 then Char.ofNat 0x451
  else c

/-- Lowercasing a character list. -/
def lowerL (l : List Char) : List Char := l.map pyLower

/-- Embedding of `_find_md_token`: normalize backslashes to slashes, split
on whitespace, return the first token whose lowercase form ends in `.md`,
stripped of surrounding quote/paren/comma/period/space characters. -/
def find_md_token (text : List Char) : Option (List Char) :=
  ((pySplitWS (replaceChar '\\' ['/'] text)).find?
      (fun p => ".md".data.isSuffixOf (lowerL p))).map
    (fun p => stripChars ['"', '\'', '(', ')', ',', '.', ' '] p)

/-- Embedding of `SimplePlanner.plan`: an open/show verb together with an
`.md` substring and a found non-empty `.md` token plans `get_note`;
everything else plans `search` with `{query: input, k: 5}`. -/
def plan (user_input : List Char) : ToolCall :=
  let low := lowerL user_input
  if (containsSub "покажи".data low || containsSub "открой".data low ||
      containsSub "open".data low) && containsSub ".md".data low then
    match find_md_token user_input with
    | some tok =>
      if tok ≠ [] then ⟨"get_note", [("note_id", ArgVal.str ⟨tok⟩)]⟩
      else ⟨"search", [("query", ArgVal.str ⟨user_input⟩), ("k", ArgVal.int 5)]⟩
    | none => ⟨"search", [("query", ArgVal.str ⟨user_input⟩), ("k", ArgVal.int 5)]⟩
  else ⟨"search", [("query", ArgVal.str ⟨user_input⟩), ("k", ArgVal.int 5)]⟩

/-- Python `ch.isalnum()` restricted to the alphabets this repository
processes (ASCII letters/digits plus Cyrillic). -/
def pyIsAlnum (c : Char) : Bool :=
  c.isAlpha || c.isDigit || (0x410 ≤ c.toNat && c.toNat ≤ 0x44f) ||
    c.toNat = 0x401 || c.toNat = 0x451

/-- Embedding of `_expand_query`: replace non-alphanumeric, non-space
characters by spaces, collapse whitespace; keep the original when that is
empty; append `" заметка"` when fewer than 3 words remain. -/
def expand_query (q : List Char) : List Char :=
  let cleaned := joinSpace (pySplitWS
    (q.map (fun ch => if pyIsAlnum ch || isPySpace ch then ch else ' ')))
  if cleaned = [] then q
  else if (pySplitWS cleaned).length < 3 then cleaned ++ " заметка".data
  else cleaned

/-- A notes-store row as far as `Tools.get_note` reads it. -/
structure NoteRow where
  id : String
  title : String
  content : String
deriving DecidableEq, Repr

/-- The `Tools` facade: the retriever behind `search` is supplied as a
function (its internals are settled by other claims), and `get_note`
scans the notes list. -/
structure Tools where
  search : String → ℤ → List RetrievalHit
  notes : List NoteRow

/-- Embedding of `AgentLoop.run(user_input, k)`.  `format_answer` consults
environment variables and possibly an LLM, so it is passed in as a
function.  The returned pair is `(answer, recorded tool calls)`. -/
def agentRun (tools : Tools) (formatAnswer : String → List RetrievalHit → String)
    (user_input : String) (k : ℤ) : String × List ToolCall :=
  let call0 := plan user_input.data
  let call := if call0.name = "search"
    then ⟨call0.name, alistSetArg "k" (ArgVal.int k) call0.args⟩ else call0
  if call.name = "get_note" then
    let nid := argAsString (alistGet "note_id" call.args)
    match tools.notes.find? (fun r => r.id = nid) with
    | none => ("Заметка не найдена: " ++ nid, [call])
    | some note => (⟨stripWS (note.title ++ "\n\n" ++ note.content).data⟩, [call])
  else
    let query := argAsString (alistGet "query" call.args)
    let k2 := argAsInt (alistGet "k" call.args) 5
    let hits := tools.search query k2
    let needExpand := match hits with
      | [] => true
      | h :: _ => decide (h.score < 0.15)
    if needExpand then
      let expanded := expand_query query.data
      if expanded ≠ query.data then
        let hits2 := tools.search ⟨expanded⟩ k2
        (formatAnswer user_input (if hits2 = [] then hits else hits2),
          [call, ⟨"search", [("query", ArgVal.str ⟨expanded⟩), ("k", ArgVal.int k2)]⟩])
      else (formatAnswer user_input hits, [call])
    else (formatAnswer user_input hits, [call])

/-! ## C6 — hashing embedding backend (`src/ka/embeddings.py`)

`_stable_hash` computes `hashlib.md5(token.encode("utf-8"))` and reads the
first 4 digest bytes as a little-endian unsigned 32-bit integer.  MD5 is an
external library routine; it is embedded here from its public definition
(RFC 1321), over byte lists with `Nat` arithmetic mod `2^32`. -/

/-- Truncation to 32 bits. -/
def w32 (n : ℕ) : ℕ := n % 4294967296

/-- 32-bit left rotation of `x < 2^32` by `s ≤ 32`. -/
def rotl32 (x s : ℕ) : ℕ := (x % 2 ^ (32 - s)) * 2 ^ s + x / 2 ^ (32 - s)

/-- MD5 sine-derived round constants `K[0..63]`. -/
def md5K : List ℕ :=
  [0xd76aa478, 0xe8c7b756, 0x242070db, 0xc1bdceee,
   0xf57c0faf, 0x4787c62a, 0xa8304613, 0xfd469501,
   0x698098d8, 0x8b44f7af, 0xffff5bb1, 0x895cd7be,
   0x6b901122, 0xfd987193, 0xa679438e, 0x49b40821,
   0xf61e2562, 0xc040b340, 0x265e5a51, 0xe9b6c7aa,
   0xd62f105d, 0x02441453, 0xd8a1e681, 0xe7d3fbc8,
   0x21e1cde6, 0xc33707d6, 0xf4d50d87, 0x455a14ed,
   0xa9e3e905, 0xfcefa3f8, 0x676f02d9, 0x8d2a4c8a,
   0xfffa3942, 0x8771f681, 0x6d9d6122, 0xfde5380c,
   0xa4beea44, 0x4bdecfa9, 0xf6bb4b60, 0xbebfbc70,
   0x289b7ec6, 0xeaa127fa, 0xd4ef3085, 0x04881d05,
   0xd9d4d039, 0xe6db99e5, 0x1fa27cf8, 0xc4ac5665,
   0xf4292244, 0x432aff97, 0xab9423a7, 0xfc93a039,
   0x655b59c3, 0x8f0ccc92, 0xffeff47d, 0x85845dd1,
   0x6fa87e4f, 0xfe2ce6e0, 0xa3014314, 0x4e0811a1,
   0xf7537e82, 0xbd3af235, 0x2ad7d2bb, 0xeb86d391]

/-- MD5 per-round shift amounts `s[0..63]`. -/
def md5S : List ℕ :=
  [7, 12, 17, 22, 7, 12, 17, 22, 7, 12, 17, 22, 7, 12, 17, 22,
   5, 9, 14, 20, 5, 9, 14, 20, 5, 9, 14, 20, 5, 9, 14, 20,
   4, 11, 16, 23, 4, 11, 16, 23, 4, 11, 16, 23, 4, 11, 16, 23,
   6, 10, 15, 21, 6, 10, 15, 21, 6, 10, 15, 21, 6, 10, 15, 21]

/-- Bitwise complement within 32 bits (operands below `2^32`). -/
def not32 (x : ℕ) : ℕ := 4294967295 - x

/-- One MD5 round on state `(a, b, c, d)` with message words `M`. -/
def md5Round (M : ℕ → ℕ) (st : ℕ × ℕ × ℕ × ℕ) (i : ℕ) : ℕ × ℕ × ℕ × ℕ :=
  let a := st.1
  let b := st.2.1
  let c := st.2.2.1
  let d := st.2.2.2
  let f :=
    if i < 16 then Nat.lor (Nat.land b c) (Nat.land (not32 b) d)
    else if i < 32 then Nat.lor (Nat.land d b) (Nat.land (not32 d) c)
    else if i < 48 then Nat.xor b (Nat.xor c d)
    else Nat.xor c (Nat.lor b (not32 d))
  let g :=
    if i < 16 then i
    else if i < 32 then (5 * i + 1) % 16
    else if i < 48 then (3 * i + 5) % 16
    else (7 * i) % 16
  let tmp := w32 (f + a + md5K.getD i 0 + M g)
  (d, w32 (b + rotl32 tmp (md5S.getD i 0)), b, c)

/-- Little-endian 32-bit word from four bytes. -/
def le4 (b0 b1 b2 b3 : ℕ) : ℕ := b0 + 256 * b1 + 65536 * b2 + 16777216 * b3

/-- Little-endian serialization of a 32-bit word. -/
def toLE4 (x : ℕ) : List ℕ := [x % 256, x / 256 % 256, x / 65536 % 256, x / 16777216 % 256]

/-- One 64-byte block of MD5. -/
def md5ProcessBlock (st : ℕ × ℕ × ℕ × ℕ) (block : List ℕ) : ℕ × ℕ × ℕ × ℕ :=
  let M : ℕ → ℕ := fun g =>
    le4 (block.getD (4 * g) 0) (block.getD (4 * g + 1) 0)
      (block.getD (4 * g + 2) 0) (block.getD (4 * g + 3) 0)
  let r := (List.range 64).foldl (md5Round M) st
  (w32 (st.1 + r.1), w32 (st.2.1 + r.2.1), w32 (st.2.2.1 + r.2.2.1),
    w32 (st.2.2.2 + r.2.2.2))

/-- MD5 padding: `0x80`, zeros to 56 mod 64, then the bit length as 8
little-endian bytes. -/
def md5Pad (msg : List ℕ) : List ℕ :=
  let z := (120 - ((msg.length + 1) % 64)) % 64
  msg ++ [0x80] ++ List.replicate z 0 ++
    (List.range 8).map (fun j => (8 * msg.length) / 2 ^ (8 * j) % 256)

/-- The padded message cut into 64-byte blocks. -/
def chunks64 (l : List ℕ) : List (List ℕ) :=
  (List.range (l.length / 64)).map (fun i => (l.drop (64 * i)).take 64)

/-- The 16-byte MD5 digest of a byte list. -/
def md5Digest (msg : List ℕ) : List ℕ :=
  let r := (chunks64 (md5Pad msg)).foldl md5ProcessBlock
    (0x67452301, 0xefcdab89, 0x98badcfe, 0x10325476)
  toLE4 r.1 ++ toLE4 r.2.1 ++ toLE4 r.2.2.1 ++ toLE4 r.2.2.2

/-- UTF-8 encoding of one character (`token.encode("utf-8")`). -/
def utf8Bytes (c : Char) : List ℕ :=
  let n := c.toNat
  if n < 0x80 then [n]
  else if n < 0x800 then [0xc0 + n / 64, 0x80 + n % 64]
  else if n < 0x10000 then [0xe0 + n / 4096, 0x80 + n / 64 % 64, 0x80 + n % 64]
  else [0xf0 + n / 262144, 0x80 + n / 4096 % 64, 0x80 + n / 64 % 64, 0x80 + n % 64]

/-- UTF-8 bytes of a string. -/
def strUtf8 (s : List Char) : List ℕ := (s.map utf8Bytes).flatten

/-- Embedding of `_stable_hash(token)`: first 4 MD5 digest bytes as a
little-endian unsigned 32-bit integer. -/
def stable_hash (token : List Char) : ℕ :=
  let d := md5Digest (strUtf8 token)
  le4 (d.getD 0 0) (d.getD 1 0) (d.getD 2 0) (d.getD 3 0)

/-- Generic run scanner: keep maximal runs of characters satisfying
`keep` (`cur` holds the reversed current run). -/
def runSplit (keep : Char → Bool) (cur : List Char) : List Char → List (List Char)
  | [] => if cur = [] then [] else [cur.reverse]
  | c :: cs =>
    if keep c then runSplit keep (c :: cur) cs
    else if cur = [] then runSplit keep [] cs
    else cur.reverse :: runSplit keep [] cs

/-- Characters kept by the embeddings tokenizer: alnum, `_`, `-`. -/
def embKeep (c : Char) : Bool := pyIsAlnum c || c = '_' || c = '-'

/-- Embedding of `_tokenize(text)` in `src/ka/embeddings.py`: lowercase,
then keep runs of alnum/`_`/`-` as tokens. -/
def embTokenize (text : List Char) : List (List Char) :=
  runSplit embKeep [] (lowerL text)

/-- One increment step of `_HashingBackend._embed`:
`mat[i, _stable_hash(tok) % dim] += 1.0`. -/
def hashStep (dim : ℕ) (row : List ℚ) (tok : List Char) : List ℚ :=
  let j := stable_hash tok % dim
  row.set j (row.getD j 0 + 1)

/-- The pre-normalization row of `_HashingBackend._embed` for one text:
start from a zero row of width `dim` and bump one coordinate per token.
The subsequent `if normalize` step divides each row by the real scalar
`sqrt(Σ x²) + 1e-12`, a deterministic function of this matrix that has no
exact image in `ℚ`; the claims address the pre-normalization rows. -/
def hashRow (dim : ℕ) (t : List Char) : List ℚ :=
  (embTokenize t).foldl (hashStep dim) (List.replicate dim 0)

/-- The pre-normalization matrix of `_HashingBackend._embed`. -/
def hashingEmbedPre (dim : ℕ) (texts : List (List Char)) : List (List ℚ) :=
  texts.map (hashRow dim)

/-! ## C1 — sentence-aware chunker (`src/scripts/preprocess_obsidian.py`)

The `clean_markdown` regexes are embedded as fuel-indexed scanners over the
original character positions (the fuel is always instantiated with the
input length; every step consumes at least one character, so the zero-fuel
case is unreachable and exists only to make the recursion structural). -/

/-- Match of `^\s*#{1,6}\s+` at a line start (returns consumed length). -/
def tryMatchHash (l : List Char) : Option ℕ :=
  let w := (l.takeWhile isPySpace).length
  let k := ((l.drop w).takeWhile (fun c => c = '#')).length
  if 1 ≤ k ∧ k ≤ 6 then
    let t := ((l.drop (w + k)).takeWhile isPySpace).length
    if 1 ≤ t then some (w + k + t) else none
  else none

/-- Match of `^\s*[-*+]\s+` at a line start. -/
def tryMatchBullet (l : List Char) : Option ℕ :=
  let w := (l.takeWhile isPySpace).length
  match (l.drop w).head? with
  | some c =>
    if c = '-' || c = '*' || c = '+' then
      let t := ((l.drop (w + 1)).takeWhile isPySpace).length
      if 1 ≤ t then some (w + 1 + t) else none
    else none
  | none => none

/-- Match of `^\s*\d+\.\s+` at a line start. -/
def tryMatchOrdinal (l : List Char) : Option ℕ :=
  let w := (l.takeWhile isPySpace).length
  let d := ((l.drop w).takeWhile Char.isDigit).length
  if 1 ≤ d then
    match (l.drop (w + d)).head? with
    | some c =>
      if c = '.' then
        let t := ((l.drop (w + d + 1)).takeWhile isPySpace).length
        if 1 ≤ t then some (w + d + 1 + t) else none
      else none
    | none => none
  else none

/-- `re.sub(pattern, '', text, flags=re.MULTILINE)` for a line-anchored
pattern expressed by `matcher`: attempt a match at every line start
(position 0 or right after a newline of the original text), deleting the
matched span; after a deletion the next position is a line start exactly
when the last deleted character was a newline. -/
def lineSubF (matcher : List Char → Option ℕ) : ℕ → Bool → List Char → List Char
  | 0, _, l => l
  | fuel + 1, atLS, l =>
    match l with
    | [] => []
    | c :: cs =>
      if atLS then
        match matcher (c :: cs) with
        | some n =>
          lineSubF matcher fuel (decide ((c :: cs).get? (n - 1) = some '\n'))
            ((c :: cs).drop n)
        | none => c :: lineSubF matcher fuel (c = '\n') cs
      else c :: lineSubF matcher fuel (c = '\n') cs

/-- Characters of the `[_*`]{2,}` class (the backquote written by code). -/
def isUSB (c : Char) : Bool := c = '_' || c = '*' || c.toNat = 96

/-- `re.sub(r"[_*`]{2,}", " ", text)`: a run of two or more of the class is
replaced by one space; an isolated one is kept. -/
def sub4F : ℕ → List Char → List Char
  | 0, l => l
  | fuel + 1, l =>
    match l with
    | [] => []
    | c :: cs =>
      if isUSB c then
        if 1 ≤ (cs.takeWhile isUSB).length then
          ' ' :: sub4F fuel (cs.dropWhile isUSB)
        else c :: sub4F fuel cs
      else c :: sub4F fuel cs

/-- `re.sub(r"\s+", " ", text)`: collapse whitespace runs to one space. -/
def collapseWSF : ℕ → List Char → List Char
  | 0, l => l
  | fuel + 1, l =>
    match l with
    | [] => []
    | c :: cs =>
      if isPySpace c then ' ' :: collapseWSF fuel (cs.dropWhile isPySpace)
      else c :: collapseWSF fuel cs

/-- Embedding of `clean_markdown(text)`: strip heading markers, bullet
markers and ordinal markers at line starts, collapse `[_*`]{2,}` runs to a
space, collapse whitespace runs to one space, strip. -/
def clean_markdown (text : List Char) : List Char :=
  let t1 := lineSubF tryMatchHash text.length true text
  let t2 := lineSubF tryMatchBullet t1.length true t1
  let t3 := lineSubF tryMatchOrdinal t2.length true t2
  let t4 := sub4F t3.length t3
  stripWS (collapseWSF t4.length t4)

/-- Sentence-final punctuation class `[.!?…]`. -/
def isPunct (c : Char) : Bool := c = '.' || c = '!' || c = '?' || c = '…'

/-- A sentence boundary of `(.+?[.!?…]+)(\s+|$)` on the collapsed text:
position `e` ends a group when the previous character is sentence-final
punctuation and `e` is the end of text or a space follows. -/
def boundaryAt (t : List Char) (e : ℕ) : Bool :=
  (match t.get? (e - 1) with
   | some c => isPunct c
   | none => false) &&
  (decide (e = t.length) || decide (t.get? e = some ' '))

/-- The lazy match starting at scan position `p` ends at the first boundary
`e ≥ p + 2` (the group needs at least two characters). -/
def findB (t : List Char) (p : ℕ) : Option ℕ :=
  (List.range (t.length + 1)).find? (fun e => decide (p + 2 ≤ e) && boundaryAt t e)

/-- The `finditer` loop of `split_into_sentences`: each match yields a
stripped sentence (kept when non-empty); the trailing `\s+` moves the scan
past the following spaces; leftover text becomes a final sentence.  Each
step advances the position, so fuel `t.length + 1` never runs out. -/
def sentLoopF : ℕ → List Char → ℕ → List (List Char)
  | 0, _, _ => []
  | fuel + 1, t, p =>
    match findB t p with
    | none =>
      let tail := stripWS (t.drop p)
      if tail = [] then [] else [tail]
    | some e =>
      let sent := stripWS ((t.drop p).take (e - p))
      let p2 := e + wsRunLen (t.drop e)
      if sent = [] then sentLoopF fuel t p2 else sent :: sentLoopF fuel t p2

/-- Embedding of `split_into_sentences(text)`. -/
def split_into_sentences (text : List Char) : List (List Char) :=
  let t0 := stripWS text
  if t0 = [] then []
  else
    let t := collapseWSF t0.length t0
    sentLoopF (t.length + 1) t 0

/-- The sentence-accumulation loop of `chunk_text`: `cur` is
`current_sentences`, `tok` is `current_tokens`; the returned list is the
`chunks` output (with the final flush). -/
def chunkLoop (cs ov : ℤ) : List (List Char) → List (List Char) → ℕ → List (List Char)
  | [], cur, _ => if cur = [] then [] else [joinSpace cur]
  | s :: rest, cur, tok =>
    let st := count_words s
    if (cs : ℤ) ≤ (st : ℤ) then
      (if cur = [] then [] else [joinSpace cur]) ++ s :: chunkLoop cs ov rest [] 0
    else if (tok : ℤ) + (st : ℤ) ≤ cs then
      chunkLoop cs ov rest (cur ++ [s]) (tok + st)
    else if cur ≠ [] then
      if 0 < ov then
        let merged := joinSpace cur
        let words := pySplitWS merged
        let ow := if (ov : ℤ) < (words.length : ℤ)
          then words.drop (words.length - ov.toNat) else words
        let otext := joinSpace ow
        joinSpace cur :: chunkLoop cs ov rest [otext, s] (count_words otext + st)
      else
        joinSpace cur :: chunkLoop cs ov rest [s] st
    else
      chunkLoop cs ov rest [s] st

/-- Embedding of `chunk_text(text, chunk_size, overlap)`. -/
def chunk_text (text : List Char) (chunk_size overlap : ℤ) : List (List Char) :=
  let t := clean_markdown text
  if t = [] then []
  else
    let sentences := split_into_sentences t
    if sentences = [] then []
    else chunkLoop chunk_size overlap sentences [] 0

/-! ## Theorems -/

/-- C7: URL normalization in `LLMClient.chat`.  The default base
`https://api.mistral.ai` yields the full chat-completions URL, and any
base that is already whitespace-trimmed, has no trailing slash and ends in
`/v1/chat/completions` is returned unchanged. -/
theorem C7_url_normalization :
    chatUrl "https://api.mistral.ai" = "https://api.mistral.ai/v1/chat/completions" ∧
    ∀ l : List Char, stripWS l = l → rstripChars ['/'] l = l →
      "/v1/chat/completions".data.isSuffixOf l = true → chatUrlL l = l := by
  constructor
  · decide
  · intro l h1 h2 h3
    rw [List.isSuffixOf_iff_suffix] at h3
    obtain ⟨p, rfl⟩ := h3
    have hs : "/v1".data ++ "/chat/completions".data = "/v1/chat/completions".data := rfl
    have c1 : ("/chat/completions".data).isSuffixOf
        (p ++ "/v1/chat/completions".data) = true := by
      rw [List.isSuffixOf_iff_suffix]
      exact ⟨p ++ "/v1".data, by rw [List.append_assoc, hs]⟩
    have hlen : (p ++ "/v1/chat/completions".data).length -
        "/chat/completions".length = p.length + 3 := by
      have e1 : ("/v1/chat/completions".data).length = 20 := rfl
      have e2 : "/chat/completions".length = 17 := rfl
      simp only [List.length_append, e1, e2]
      omega
    have htake : (p ++ "/v1/chat/completions".data).take (p.length + 3) =
        p ++ "/v1".data := by
      rw [← hs, ← List.append_assoc]
      exact List.take_left' (by simp)
    have c2 : ("/v1".data).isSuffixOf (p ++ "/v1".data) = true := by
      rw [List.isSuffixOf_iff_suffix]; exact ⟨p, rfl⟩
    simp only [chatUrlL, h1, h2, c1, if_true, hlen, htake, c2, Bool.not_true,
      Bool.false_and, if_false, Bool.false_eq_true]
    rw [List.append_assoc, hs]

/-- Witness for C7 at a concrete base URL already ending in
`/v1/chat/completions`. -/
theorem C7_url_normalization_witness :
    chatUrlL "https://b/v1/chat/completions".data = "https://b/v1/chat/completions".data :=
  C7_url_normalization.2 "https://b/v1/chat/completions".data
    (by decide) (by decide) (by decide)

/-- C9 counterexample: on a one-hit list the returned string starts with a
blank line before the `"Источники:"` header, so it is not of the claimed
form "header line followed by one line per hit". -/
theorem C9_sources_block_counterexample :
    sources_block [⟨0, "c", "a&b", "<t>", "s", ""⟩] =
      "\nИсточники:\n1) a&amp;b (c) — &lt;t&gt; → s" ∧
    sources_block [⟨0, "c", "a&b", "<t>", "s", ""⟩] ≠
      "Источники:\n1) a&amp;b (c) — &lt;t&gt; → s" := by
  decide

/-- C9 (amended): `sources_block` returns `""` on no hits, and otherwise a
blank line, then the header line `"Источники:"`, then exactly one line per
hit of the form `"{i}) {note_id} ({chunk_id}) — {title} → {section}"` with
the four fields HTML-escaped (`&`→`&amp;`, `<`→`&lt;`, `>`→`&gt;`). -/
theorem C9_sources_block :
    sources_block [] = "" ∧
    ∀ hits : List RetrievalHit, hits ≠ [] →
      sources_block hits = "\n" ++ joinNL ("Источники:" :: sourcesLinesFrom 1 hits) := by
  refine ⟨rfl, ?_⟩
  intro hits hne
  cases hits with
  | nil => exact absurd rfl hne
  | cons h hs => rfl

/-- Witness for C9 on a concrete non-empty hit list. -/
theorem C9_sources_block_witness :
    sources_block [⟨0, "c", "n", "t", "s", ""⟩] =
      "\n" ++ joinNL ("Источники:" :: sourcesLinesFrom 1 [⟨0, "c", "n", "t", "s", ""⟩]) :=
  C9_sources_block.2 [⟨0, "c", "n", "t", "s", ""⟩] (by decide)

/-- C8 counterexample: `title="A"`, `section="B"` yields `"A"` (the
4-character candidate `"A. B"` triggers the `< 8` fallback), not `"A. B"`;
and `strip(". ")` also removes leading dots/spaces of the title, so
`title="..hello"`, `section="world"` yields `"hello. world"`, not
`"..hello. world"`. -/
theorem C8_query_derivation_counterexample :
    (deriveQuery "A" "B" "xyz" = "A" ∧ deriveQuery "A" "B" "xyz" ≠ "A. B") ∧
    (deriveQuery "..hello" "world" "" = "hello. world" ∧
      deriveQuery "..hello" "world" "" ≠ "..hello. world") := by
  decide

/-- C8 (amended): the candidate query is `"{title}. {section}"` with leading
and trailing `'.'`/`' '` characters stripped (so leading title punctuation is
removed too); when that is shorter than 8 characters the code falls back to
the title, else the section, else the first 80 characters of the text, else
`"query"`.  With `title="A"`, `section="B"` the fallback fires and gives
`"A"`; with empty title/section and `text="hello world"` it gives
`"hello world"`. -/
theorem C8_query_derivation :
    (∀ text, deriveQuery "A" "B" text = "A") ∧
    deriveQuery "" "" "hello world" = "hello world" ∧
    (∀ title sect text : String,
      8 ≤ (stripWS (stripChars ['.', ' '] ((title ++ ". " ++ sect).data))).length →
      deriveQuery title sect text =
        ⟨stripWS (stripChars ['.', ' '] ((title ++ ". " ++ sect).data))⟩) ∧
    (∀ title sect text : String,
      (stripWS (stripChars ['.', ' '] ((title ++ ". " ++ sect).data))).length < 8 →
      deriveQuery title sect text =
        (if title ≠ "" then title
         else if sect ≠ "" then sect
         else if text ≠ "" then (⟨text.data.take 80⟩ : String)
         else "query")) := by
  refine ⟨?_, by decide, ?_, ?_⟩
  · intro text
    have hc : (stripWS (stripChars ['.', ' ']
        ((("A" : String) ++ ". " ++ "B").data))).length < 8 := by decide
    simp only [deriveQuery]
    rw [if_pos hc, if_pos (show ("A" : String) ≠ "" by decide)]
  · intro title sect text h
    simp only [deriveQuery]
    rw [if_neg (by omega)]
  · intro title sect text h
    simp only [deriveQuery]
    rw [if_pos h]

/-- C5: for both index implementations, `add` returns the invalid-input
error exactly when the vectors are not a 2-D array whose column count equals
the index dimensionality or the row count differs from the payload count,
and succeeds otherwise. -/
theorem C5_add_validation :
    ∀ (h : HnswIndex) (b : BruteForceIndex) (v : NDArray) (ps : List Payload),
      ((∃ e, h.add v ps = .error e) ↔
        v.shape.length ≠ 2 ∨ v.shape.getD 1 0 ≠ h.dim ∨ ps.length ≠ v.shape.getD 0 0) ∧
      ((∃ h2, h.add v ps = .ok h2) ↔
        ¬(v.shape.length ≠ 2 ∨ v.shape.getD 1 0 ≠ h.dim ∨
          ps.length ≠ v.shape.getD 0 0)) ∧
      ((∃ e, b.add v ps = .error e) ↔
        v.shape.length ≠ 2 ∨ v.shape.getD 1 0 ≠ b.dim ∨ ps.length ≠ v.shape.getD 0 0) ∧
      ((∃ b2, b.add v ps = .ok b2) ↔
        ¬(v.shape.length ≠ 2 ∨ v.shape.getD 1 0 ≠ b.dim ∨
          ps.length ≠ v.shape.getD 0 0)) := by
  intro h b v ps
  refine ⟨?_, ?_, ?_, ?_⟩ <;>
    simp only [HnswIndex.add, BruteForceIndex.add] <;>
    split_ifs <;>
    simp only [Except.error.injEq, Except.ok.injEq, exists_eq', reduceCtorEq,
      exists_false, true_iff, false_iff, iff_true, iff_false, not_not] <;>
    tauto

/-- Helper: one (possibly failing) `add` preserves the row/payload count
invariant of the brute-force index. -/
theorem bfAddStepInv (idx : BruteForceIndex) (v : NDArray) (ps : List Payload)
    (h : idx.nrows = idx.payload.length) :
    (addOrKeep idx v ps).nrows = (addOrKeep idx v ps).payload.length := by
  unfold addOrKeep BruteForceIndex.add
  split_ifs with h1 h2
  · exact h
  · exact h
  · simp only [BruteForceIndex.nrows] at h ⊢
    cases hv : idx.vectors with
    | none =>
      simp only [hv, Option.getD_none, List.length_nil] at h
      simp only [NDArray.toRows, Option.getD_some, List.length_map,
        List.length_range, List.length_append]
      omega
    | some m =>
      simp only [hv, Option.getD_some, List.length_nil] at h
      simp only [NDArray.toRows, Option.getD_some, List.length_map,
        List.length_range, List.length_append]
      omega

/-- Helper: the invariant holds along any sequence of `add` calls. -/
theorem bfApplyAddsInv (ops : List (NDArray × List Payload)) :
    ∀ idx : BruteForceIndex, idx.nrows = idx.payload.length →
      (applyAdds idx ops).nrows = (applyAdds idx ops).payload.length := by
  induction ops with
  | nil => intro idx h; exact h
  | cons op rest ih =>
    intro idx h
    exact ih _ (bfAddStepInv idx op.1 op.2 h)

/-- Helper: membership in the stable descending sort. -/
theorem memOfMemInsertDescBy (key : α → ℚ) (x y : α) :
    ∀ l : List α, x ∈ insertDescBy key y l → x = y ∨ x ∈ l := by
  intro l
  induction l with
  | nil => intro h; simpa [insertDescBy] using h
  | cons z zs ih =>
    intro h
    by_cases hc : key z ≤ key y
    · simp only [insertDescBy, if_pos hc] at h
      rcases List.mem_cons.mp h with h2 | h2
      · exact Or.inl h2
      · exact Or.inr h2
    · simp only [insertDescBy, if_neg hc] at h
      rcases List.mem_cons.mp h with h2 | h2
      · exact Or.inr (by simp [h2])
      · rcases ih h2 with h3 | h3
        · exact Or.inl h3
        · exact Or.inr (List.mem_cons_of_mem _ h3)

/-- Helper: the sorted index list only permutes its input. -/
theorem memOfMemSortDescBy (key : α → ℚ) (x : α) :
    ∀ l : List α, x ∈ sortDescBy key l → x ∈ l := by
  intro l
  induction l with
  | nil => intro h; simp [sortDescBy] at h
  | cons z zs ih =>
    intro h
    unfold sortDescBy at h
    rcases memOfMemInsertDescBy key x z _ h with h2 | h2
    · simp [h2]
    · exact List.mem_cons_of_mem _ (ih h2)

/-- C10: after any sequence of `add` calls on an initially empty
brute-force index (failed calls leave the state unchanged, since validation
precedes mutation), the vector matrix has exactly as many rows as the
payload list has entries; `search` returns at most `min k n` results and
every returned payload is one of the stored payloads. -/
theorem C10_bruteforce_invariant :
    ∀ (dim : ℕ) (ops : List (NDArray × List Payload)),
      (applyAdds (emptyBF dim) ops).nrows =
        (applyAdds (emptyBF dim) ops).payload.length ∧
      ∀ (q : List ℚ) (k : ℕ),
        ((applyAdds (emptyBF dim) ops).search q k).length ≤
          min k (applyAdds (emptyBF dim) ops).nrows ∧
        ∀ s p, (s, p) ∈ (applyAdds (emptyBF dim) ops).search q k →
          p ∈ (applyAdds (emptyBF dim) ops).payload := by
  intro dim ops
  refine ⟨bfApplyAddsInv ops (emptyBF dim) rfl, ?_⟩
  intro q k
  set idx := applyAdds (emptyBF dim) ops with hidx
  constructor
  · unfold BruteForceIndex.search
    cases hv : idx.vectors with
    | none => simp
    | some rows =>
      split_ifs with hp
      · simp
      · have h1 : ∀ l2 : List ℕ, (l2.filterMap
            (fun i => (idx.payload.get? i).map
              (fun p => (((rows.map (fun r => dotQ r q)).getD i 0), p)))).length ≤
            l2.length := fun l2 => List.length_filterMap_le _ _
        refine le_trans (h1 _) ?_
        have h2 : idx.nrows = rows.length := by
          simp [BruteForceIndex.nrows, hv]
        simp only [List.length_take, List.length_map, h2]
        omega
  · intro s p hmem
    unfold BruteForceIndex.search at hmem
    cases hv : idx.vectors with
    | none => simp [hv] at hmem
    | some rows =>
      rw [hv] at hmem
      split_ifs at hmem with hp
      · simp at hmem
      · simp only [List.mem_filterMap, Option.map_eq_some'] at hmem
        obtain ⟨i, _, p2, hg, he⟩ := hmem
        have : p2 = p := by
          have := congrArg Prod.snd he
          simpa using this
        subst this
        exact List.get?_mem hg

/-- Helper: updating a chunk's score sets exactly that key. -/
theorem alistGet_addScore_self (cid : String) (d : ℚ) :
    ∀ l : List (String × ℚ),
      alistGet cid (alistAddScore cid d l) = some ((alistGet cid l).getD 0 + d) := by
  intro l
  induction l with
  | nil => simp [alistAddScore, alistGet]
  | cons kv rest ih =>
    obtain ⟨k, v⟩ := kv
    by_cases hk : k = cid
    · simp [alistAddScore, alistGet, hk]
    · simp only [alistAddScore, if_neg hk, alistGet, ih]

/-- Helper: updating a chunk's score leaves other keys alone. -/
theorem alistGet_addScore_ne (cid k0 : String) (d : ℚ) (hne : k0 ≠ cid) :
    ∀ l : List (String × ℚ),
      alistGet k0 (alistAddScore cid d l) = alistGet k0 l := by
  intro l
  induction l with
  | nil => simp [alistAddScore, alistGet, Ne.symm hne]
  | cons kv rest ih =>
    obtain ⟨k, v⟩ := kv
    by_cases hk : k = cid
    · subst hk
      simp [alistAddScore, alistGet, Ne.symm hne]
    · by_cases hk0 : k = k0
      · simp [alistAddScore, alistGet, if_neg hk, hk0, hne]
      · simp [alistAddScore, alistGet, if_neg hk, hk0, ih]

/-- Helper: keys reachable after a score update. -/
theorem mem_keys_alistAddScore (cid x : String) (d : ℚ) :
    ∀ l : List (String × ℚ),
      x ∈ (alistAddScore cid d l).map Prod.fst →
        x ∈ l.map Prod.fst ∨ x = cid := by
  intro l
  induction l with
  | nil => intro h; simp [alistAddScore] at h; exact Or.inr h
  | cons kv rest ih =>
    obtain ⟨k, v⟩ := kv
    intro h
    by_cases hk : k = cid
    · simp only [alistAddScore, if_pos hk, List.map_cons, List.mem_cons] at h
      rcases h with h | h
      · exact Or.inl (by simp [h])
      · exact Or.inl (by simp [h])
    · simp only [alistAddScore, if_neg hk, List.map_cons, List.mem_cons] at h
      rcases h with h | h
      · exact Or.inl (by simp [h])
      · rcases ih h with h2 | h2
        · exact Or.inl (by simp [h2])
        · exact Or.inr h2

/-- Helper: a score update keeps the keys duplicate-free. -/
theorem nodupKeys_alistAddScore (cid : String) (d : ℚ) :
    ∀ l : List (String × ℚ),
      (l.map Prod.fst).Nodup → ((alistAddScore cid d l).map Prod.fst).Nodup := by
  intro l
  induction l with
  | nil => intro _; simp [alistAddScore]
  | cons kv rest ih =>
    obtain ⟨k, v⟩ := kv
    intro h
    simp only [List.map_cons, List.nodup_cons] at h
    by_cases hk : k = cid
    · simp only [alistAddScore, if_pos hk, List.map_cons, List.nodup_cons]
      exact h
    · simp only [alistAddScore, if_neg hk, List.map_cons, List.nodup_cons]
      refine ⟨?_, ih h.2⟩
      intro hmem
      rcases mem_keys_alistAddScore cid k d rest hmem with h2 | h2
      · exact h.1 h2
      · exact hk h2

/-- Helper: entries reachable after `alistSetIfAbsent`. -/
theorem mem_alistSetIfAbsent (cid : String) (p : Payload) :
    ∀ (l : List (String × Payload)) (x : String × Payload),
      x ∈ alistSetIfAbsent cid p l → x = (cid, p) ∨ x ∈ l := by
  intro l
  induction l with
  | nil => intro x h; simp [alistSetIfAbsent] at h; exact Or.inl (by simp [h])
  | cons kv rest ih =>
    obtain ⟨k, v⟩ := kv
    intro x h
    by_cases hk : k = cid
    · simp only [alistSetIfAbsent, if_pos hk] at h
      exact Or.inr h
    · simp only [alistSetIfAbsent, if_neg hk, List.mem_cons] at h
      rcases h with h | h
      · exact Or.inr (by simp [h])
      · rcases ih x h with h2 | h2
        · exact Or.inl h2
        · exact Or.inr (List.mem_cons_of_mem _ h2)

/-- Helper: a successful `alistGet` comes from a member entry. -/
theorem mem_of_alistGet_some (cid : String) (v : α) :
    ∀ l : List (String × α), alistGet cid l = some v → (cid, v) ∈ l := by
  intro l
  induction l with
  | nil => intro h; simp [alistGet] at h
  | cons kv rest ih =>
    obtain ⟨k, w⟩ := kv
    intro h
    by_cases hk : k = cid
    · subst hk
      simp only [alistGet, eq_self_iff_true, if_true, Option.some.injEq] at h
      simp [h]
    · simp only [alistGet, if_neg hk] at h
      exact List.mem_cons_of_mem _ (ih h)

/-- Helper: on duplicate-free keys, membership determines `alistGet`. -/
theorem alistGet_of_mem_nodup (cid : String) (v : α) :
    ∀ l : List (String × α), (l.map Prod.fst).Nodup → (cid, v) ∈ l →
      alistGet cid l = some v := by
  intro l
  induction l with
  | nil => intro _ h; simp at h
  | cons kv rest ih =>
    obtain ⟨k, w⟩ := kv
    intro hnd hm
    simp only [List.map_cons, List.nodup_cons] at hnd
    rcases List.mem_cons.mp hm with h | h
    · have hk : k = cid := (congrArg Prod.fst h).symm
      have hw : w = v := (congrArg Prod.snd h).symm
      subst hk
      simp [alistGet, hw]
    · by_cases hk : k = cid
      · subst hk
        exact absurd (List.mem_map_of_mem Prod.fst h) hnd.1
      · simp only [alistGet, if_neg hk]
        exact ih hnd.2 h

/-- Helper: the running score of a (non-empty) chunk id after processing one
ranked list equals its previous score plus that list's RRF contribution. -/
theorem rrfAddAll_score (kq : ℚ) (cid : String) (hcid : cid ≠ "") :
    ∀ (hits : List (ℚ × Payload)) (st : List (String × ℚ) × List (String × Payload))
      (rank : ℕ),
      (alistGet cid (rrfAddAll kq st rank hits).1).getD 0 =
        (alistGet cid st.1).getD 0 + listContribFrom kq cid rank hits := by
  intro hits
  induction hits with
  | nil => intro st rank; simp [rrfAddAll, listContribFrom]
  | cons h hs ih =>
    intro st rank
    simp only [rrfAddAll, listContribFrom]
    rw [ih]
    have hstep : (alistGet cid (rrfAdd kq st rank h.2).1).getD 0 =
        (alistGet cid st.1).getD 0 +
          (if h.2.chunk_id = cid then 1 / (kq + rank) else 0) := by
      unfold rrfAdd
      by_cases he : h.2.chunk_id = ""
      · rw [if_pos he]
        have : ¬ h.2.chunk_id = cid := fun hc => hcid (hc ▸ he)
        rw [if_neg this, add_zero]
      · rw [if_neg he]
        by_cases hc : h.2.chunk_id = cid
        · rw [if_pos hc, hc]
          simp [alistGet_addScore_self]
        · rw [if_neg hc]
          rw [alistGet_addScore_ne h.2.chunk_id cid (1 / (kq + rank))
            (fun hx => hc hx.symm) st.1]
          ring_nf
    rw [hstep]
    ring

/-- Helper: one `add` step preserves the accumulator invariant. -/
theorem rrfAdd_inv (kq : ℚ) (st : List (String × ℚ) × List (String × Payload))
    (rank : ℕ) (p : Payload) (h : RrfInv st) : RrfInv (rrfAdd kq st rank p) := by
  unfold rrfAdd
  by_cases he : p.chunk_id = ""
  · rw [if_pos he]; exact h
  · rw [if_neg he]
    obtain ⟨h1, h2, h3⟩ := h
    refine ⟨nodupKeys_alistAddScore _ _ _ h1, ?_, ?_⟩
    · intro c hc
      rcases mem_keys_alistAddScore _ c _ _ hc with hm | hm
      · exact h2 c hm
      · exact hm ▸ he
    · intro x hx
      rcases mem_alistSetIfAbsent _ _ _ x hx with hm | hm
      · subst hm; exact ⟨rfl, he⟩
      · exact h3 x hm

/-- Helper: the invariant holds after processing a whole ranked list. -/
theorem rrfAddAll_inv (kq : ℚ) :
    ∀ (hits : List (ℚ × Payload)) (st : List (String × ℚ) × List (String × Payload))
      (rank : ℕ), RrfInv st → RrfInv (rrfAddAll kq st rank hits) := by
  intro hits
  induction hits with
  | nil => intro st rank h; exact h
  | cons h hs ih =>
    intro st rank hinv
    exact ih _ _ (rrfAdd_inv kq st rank h.2 hinv)

/-- Helper: inserting into a descending-sorted list keeps it sorted. -/
theorem pairwise_insertDescBy (key : α → ℚ) (x : α) :
    ∀ l : List α, l.Pairwise (fun a b => key b ≤ key a) →
      (insertDescBy key x l).Pairwise (fun a b => key b ≤ key a) := by
  intro l
  induction l with
  | nil => intro _; simp [insertDescBy]
  | cons z zs ih =>
    intro h
    have hz := List.pairwise_cons.mp h
    by_cases hc : key z ≤ key x
    · simp only [insertDescBy, if_pos hc]
      refine List.pairwise_cons.mpr ⟨?_, h⟩
      intro b hb
      rcases List.mem_cons.mp hb with rfl | hb2
      · exact hc
      · exact le_trans (hz.1 b hb2) hc
    · simp only [insertDescBy, if_neg hc]
      refine List.pairwise_cons.mpr ⟨?_, ih hz.2⟩
      intro b hb
      rcases memOfMemInsertDescBy key b x zs hb with rfl | hb2
      · exact le_of_not_le hc
      · exact hz.1 b hb2

/-- Helper: the stable descending sort is descending-sorted. -/
theorem pairwise_sortDescBy (key : α → ℚ) :
    ∀ l : List α, (sortDescBy key l).Pairwise (fun a b => key b ≤ key a) := by
  intro l
  induction l with
  | nil => simp [sortDescBy]
  | cons z zs ih => exact pairwise_insertDescBy key z _ ih

/-- C4: Reciprocal Rank Fusion.  The fused output is sorted descending by
accumulated score; every fused entry's score is exactly the sum of the two
lists' independent contributions `1/(rrf_k + rank)` (1-based ranks) for its
payload's `chunk_id`; and on the rankings `[A,B,C]` / `[C,A,B]` with
`rrf_k=60`, document `A` is fused rank 1 with score `1/61 + 1/62`. -/
theorem C4_rrf_fusion :
    (∀ (vec bm : List (ℚ × Payload)) (rrf_k : ℤ),
      (rrf_fuse vec bm rrf_k).Pairwise (fun a b => b.1 ≤ a.1)) ∧
    (∀ (vec bm : List (ℚ × Payload)) (rrf_k : ℤ) (s : ℚ) (p : Payload),
      (s, p) ∈ rrf_fuse vec bm rrf_k →
        s = listContribFrom ((max 1 rrf_k : ℤ) : ℚ) p.chunk_id 1 vec +
            listContribFrom ((max 1 rrf_k : ℤ) : ℚ) p.chunk_id 1 bm) ∧
    (rrf_fuse [(0, rrfPayloadA), (0, rrfPayloadB), (0, rrfPayloadC)]
        [(0, rrfPayloadC), (0, rrfPayloadA), (0, rrfPayloadB)] 60).head? =
      some (1/61 + 1/62, rrfPayloadA) := by
  refine ⟨?_, ?_, ?_⟩
  · intro vec bm rrf_k
    unfold rrf_fuse
    refine List.Pairwise.filterMap _ ?_ (pairwise_sortDescBy _ _)
    intro a b hr c hc d hd
    rw [Option.mem_def, Option.map_eq_some'] at hc hd
    obtain ⟨pa, _, rfl⟩ := hc
    obtain ⟨pb, _, rfl⟩ := hd
    exact hr
  · intro vec bm rrf_k s p hmem
    simp only [rrf_fuse, List.mem_filterMap] at hmem
    obtain ⟨pr, hsort, heq⟩ := hmem
    rw [Option.map_eq_some'] at heq
    obtain ⟨p2, hget, hpair⟩ := heq
    have hs : pr.2 = s := congrArg Prod.fst hpair
    have hp2 : p2 = p := congrArg Prod.snd hpair
    subst hs
    subst hp2
    have hinv : RrfInv (rrfAddAll ((max 1 rrf_k : ℤ) : ℚ)
        (rrfAddAll ((max 1 rrf_k : ℤ) : ℚ) ([], []) 1 vec) 1 bm) := by
      refine rrfAddAll_inv _ bm _ 1 (rrfAddAll_inv _ vec ([], []) 1 ?_)
      exact ⟨List.nodup_nil, by simp, by simp⟩
    have hpm := mem_of_alistGet_some pr.1 p2 _ hget
    obtain ⟨hcid, hne⟩ := hinv.2.2 _ hpm
    have hmem1 : pr ∈ (rrfAddAll ((max 1 rrf_k : ℤ) : ℚ)
        (rrfAddAll ((max 1 rrf_k : ℤ) : ℚ) ([], []) 1 vec) 1 bm).1 :=
      memOfMemSortDescBy _ pr _ hsort
    have hlook : alistGet pr.1 (rrfAddAll ((max 1 rrf_k : ℤ) : ℚ)
        (rrfAddAll ((max 1 rrf_k : ℤ) : ℚ) ([], []) 1 vec) 1 bm).1 = some pr.2 := by
      refine alistGet_of_mem_nodup pr.1 pr.2 _ hinv.1 ?_
      simpa using hmem1
    simp only [] at hcid
    have hscore2 := rrfAddAll_score ((max 1 rrf_k : ℤ) : ℚ) pr.1 hne bm
      (rrfAddAll ((max 1 rrf_k : ℤ) : ℚ) ([], []) 1 vec) 1
    have hscore1 := rrfAddAll_score ((max 1 rrf_k : ℤ) : ℚ) pr.1 hne vec ([], []) 1
    rw [hlook] at hscore2
    simp only [alistGet, Option.getD_none, Option.getD_some, zero_add] at hscore1 hscore2
    rw [hscore1] at hscore2
    rw [hcid]
    exact hscore2
  · norm_num [rrf_fuse, rrfAddAll, rrfAdd, alistAddScore, alistSetIfAbsent,
      sortDescBy, insertDescBy, alistGet, rrfPayloadA, rrfPayloadB, rrfPayloadC]

/-- Witness for C4: on the one-hit list `[A]` versus an empty second list
with `rrf_k = 60`, fused entry `(1/61, A)` has exactly the contribution
score. -/
theorem C4_rrf_fusion_witness :
    (1/61 : ℚ) = listContribFrom ((max 1 (60:ℤ) : ℤ) : ℚ) rrfPayloadA.chunk_id 1
        [((0:ℚ), rrfPayloadA)] +
      listContribFrom ((max 1 (60:ℤ) : ℤ) : ℚ) rrfPayloadA.chunk_id 1 [] :=
  C4_rrf_fusion.2.1 [(0, rrfPayloadA)] [] 60 (1/61) rrfPayloadA
    (by simp [rrf_fuse, rrfAddAll, rrfAdd, alistAddScore, alistSetIfAbsent,
          sortDescBy, insertDescBy, alistGet, rrfPayloadA]
        norm_num)

/-- Witness for C8 at a concrete row whose stripped candidate reaches 8
characters. -/
theorem C8_query_derivation_witness :
    deriveQuery "abcdefgh" "" "" = "abcdefgh" :=
  C8_query_derivation.2.2.1 "abcdefgh" "" "" (by decide)

/-- C2 counterexample: with a front-matter block that parses to a
non-mapping (a YAML list), the returned body is only the part after the
closing delimiter, not the entire original text as claimed. -/
theorem C2_frontmatter_counterexample :
    split_frontmatter (fun _ => some YamlValue.vnonDict) "---\n- a\n---\nrest".data =
      ([], "rest".data) ∧
    "rest".data ≠ "---\n- a\n---\nrest".data := by
  decide

/-- C2 (amended): when the front-matter pattern matches, a YAML parse
error discards the front matter and returns the entire original text as the
body; a successful parse returns the text after the delimiter as the body,
with the parsed entries when the value is a mapping and an empty mapping
otherwise (the body is NOT reset to the whole text in the non-mapping
case); without a front-matter match the whole text is the body. -/
theorem C2_frontmatter_handling :
    (∀ (safeLoad : List Char → Option YamlValue) (text : List Char),
      fmMatch text = none → split_frontmatter safeLoad text = ([], text)) ∧
    (∀ (safeLoad : List Char → Option YamlValue) (text fm body : List Char),
      fmMatch text = some (fm, body) →
      (safeLoad fm = none → split_frontmatter safeLoad text = ([], text)) ∧
      (∀ d, safeLoad fm = some (.vdict d) →
        split_frontmatter safeLoad text = (d, body)) ∧
      (safeLoad fm = some .vnonDict →
        split_frontmatter safeLoad text = ([], body))) := by
  constructor
  · intro safeLoad text h
    unfold split_frontmatter
    rw [h]
  · intro safeLoad text fm body h
    refine ⟨?_, ?_, ?_⟩
    · intro hl
      simp only [split_frontmatter, h, hl]
    · intro d hl
      simp only [split_frontmatter, h, hl]
    · intro hl
      simp only [split_frontmatter, h, hl]

/-- Witness for C2: a concrete file whose front matter fails to parse keeps
the whole original text as body. -/
theorem C2_frontmatter_handling_witness :
    split_frontmatter (fun _ => none) "---\na\n---\nb".data =
      ([], "---\na\n---\nb".data) :=
  (C2_frontmatter_handling.2 (fun _ => none) "---\na\n---\nb".data
    "a".data "b".data (by decide)).1 rfl

/-- Helper: whenever the planner plans a search, the call is exactly
`{query: input, k: 5}`. -/
theorem plan_search_shape (u : List Char) (h : (plan u).name = "search") :
    plan u = ⟨"search", [("query", ArgVal.str ⟨u⟩), ("k", ArgVal.int 5)]⟩ := by
  unfold plan at h ⊢
  by_cases hC : ((containsSub "покажи".data (lowerL u) ||
      containsSub "открой".data (lowerL u) ||
      containsSub "open".data (lowerL u)) && containsSub ".md".data (lowerL u)) = true
  · rw [if_pos hC] at h ⊢
    cases hfind : find_md_token u with
    | none => simp [hfind]
    | some tok =>
      by_cases htok : tok = []
      · simp [hfind, htok]
      · simp only [hfind, htok, ne_eq, not_false_eq_true, if_true] at h
        exact absurd h (by decide)
  · rw [if_neg hC] at h ⊢

/-- C3 counterexample: the input `"hello world this"` plans to a search and
the first search returns no hits, yet no second search call is recorded,
because the expanded query equals the original (the claim asserts exactly
one additional call whenever the first search is empty or low-scoring). -/
theorem C3_agent_expansion_counterexample :
    (plan "hello world this".data).name = "search" ∧
    (agentRun ⟨fun _ _ => [], []⟩ (fun _ _ => "") "hello world this" 5).2.length = 1 ∧
    ¬((agentRun ⟨fun _ _ => [], []⟩ (fun _ _ => "") "hello world this" 5).2.length = 2) := by
  decide

/-- C3 (amended): on the search path the agent records at most two search
calls; a first search whose top hit scores `0.15` or more triggers no
second call; an empty or low-scoring first search triggers exactly one
additional recorded search call with the expanded query — but only when
the expanded query differs from the original (otherwise the single first
call stands) — and the second search's hits replace the working set only
when non-empty. -/
theorem C3_agent_expansion :
    (∀ (tools : Tools) (fmt : String → List RetrievalHit → String)
        (input : String) (k : ℤ),
      ((agentRun tools fmt input k).2).length ≤ 2) ∧
    (∀ (tools : Tools) (fmt : String → List RetrievalHit → String)
        (input : String) (k : ℤ) (h0 : RetrievalHit) (hs : List RetrievalHit),
      (plan input.data).name = "search" →
      tools.search input k = h0 :: hs → (0.15 : ℚ) ≤ h0.score →
      agentRun tools fmt input k =
        (fmt input (h0 :: hs),
         [⟨"search", [("query", ArgVal.str input), ("k", ArgVal.int k)]⟩])) ∧
    (∀ (tools : Tools) (fmt : String → List RetrievalHit → String)
        (input : String) (k : ℤ),
      (plan input.data).name = "search" →
      (tools.search input k = [] ∨
        ∃ h0 hs, tools.search input k = h0 :: hs ∧ h0.score < (0.15 : ℚ)) →
      expand_query input.data ≠ input.data →
      agentRun tools fmt input k =
        (fmt input (if tools.search ⟨expand_query input.data⟩ k = []
            then tools.search input k else tools.search ⟨expand_query input.data⟩ k),
         [⟨"search", [("query", ArgVal.str input), ("k", ArgVal.int k)]⟩,
          ⟨"search", [("query", ArgVal.str ⟨expand_query input.data⟩),
            ("k", ArgVal.int k)]⟩])) ∧
    (∀ (tools : Tools) (fmt : String → List RetrievalHit → String)
        (input : String) (k : ℤ),
      (plan input.data).name = "search" →
      (tools.search input k = [] ∨
        ∃ h0 hs, tools.search input k = h0 :: hs ∧ h0.score < (0.15 : ℚ)) →
      expand_query input.data = input.data →
      agentRun tools fmt input k =
        (fmt input (tools.search input k),
         [⟨"search", [("query", ArgVal.str input), ("k", ArgVal.int k)]⟩])) := by
  refine ⟨?_, ?_, ?_, ?_⟩
  · intro tools fmt input k
    unfold agentRun
    dsimp only
    split_ifs <;> first
      | (simp; done)
      | (split <;> simp)
  · intro tools fmt input k h0 hs hplan hsearch hscore
    have hlt : ¬ (h0.score < (0.15 : ℚ)) := not_lt.mpr hscore
    unfold agentRun
    rw [plan_search_shape input.data hplan]
    show (if ("search" : String) = "get_note" then _ else _) = _
    rw [if_neg (show ¬ ("search" : String) = "get_note" by decide)]
    have hmk : (⟨input.data⟩ : String) = input := rfl
    have e1 : alistSetArg "k" (ArgVal.int k)
        [("query", ArgVal.str ⟨input.data⟩), ("k", ArgVal.int 5)] =
        [("query", ArgVal.str ⟨input.data⟩), ("k", ArgVal.int k)] := rfl
    simp only [e1, hmk, if_true]
    have f1 : argAsString (alistGet "query"
        [("query", ArgVal.str input), ("k", ArgVal.int k)]) = input := rfl
    have f2 : argAsInt (alistGet "k"
        [("query", ArgVal.str input), ("k", ArgVal.int k)]) 5 = k := rfl
    simp only [f1, f2, hsearch, decide_eq_false hlt]
    simp
  · intro tools fmt input k hplan hlow hne
    unfold agentRun
    rw [plan_search_shape input.data hplan]
    show (if ("search" : String) = "get_note" then _ else _) = _
    rw [if_neg (show ¬ ("search" : String) = "get_note" by decide)]
    have hmk : (⟨input.data⟩ : String) = input := rfl
    have e1 : alistSetArg "k" (ArgVal.int k)
        [("query", ArgVal.str ⟨input.data⟩), ("k", ArgVal.int 5)] =
        [("query", ArgVal.str ⟨input.data⟩), ("k", ArgVal.int k)] := rfl
    simp only [e1, hmk, if_true]
    have f1 : argAsString (alistGet "query"
        [("query", ArgVal.str input), ("k", ArgVal.int k)]) = input := rfl
    have f2 : argAsInt (alistGet "k"
        [("query", ArgVal.str input), ("k", ArgVal.int k)]) 5 = k := rfl
    simp only [f1, f2]
    rcases hlow with hempty | ⟨h0, hs, hcons, hsc⟩
    · simp only [hempty]
      simp [hne]
    · simp only [hcons, decide_eq_true hsc]
      simp [hne]
  · intro tools fmt input k hplan hlow heq
    unfold agentRun
    rw [plan_search_shape input.data hplan]
    show (if ("search" : String) = "get_note" then _ else _) = _
    rw [if_neg (show ¬ ("search" : String) = "get_note" by decide)]
    have hmk : (⟨input.data⟩ : String) = input := rfl
    have e1 : alistSetArg "k" (ArgVal.int k)
        [("query", ArgVal.str ⟨input.data⟩), ("k", ArgVal.int 5)] =
        [("query", ArgVal.str ⟨input.data⟩), ("k", ArgVal.int k)] := rfl
    simp only [e1, hmk, if_true]
    have f1 : argAsString (alistGet "query"
        [("query", ArgVal.str input), ("k", ArgVal.int k)]) = input := rfl
    have f2 : argAsInt (alistGet "k"
        [("query", ArgVal.str input), ("k", ArgVal.int k)]) 5 = k := rfl
    simp only [f1, f2]
    rcases hlow with hempty | ⟨h0, hs, hcons, hsc⟩
    · simp [hempty, heq]
    · simp [hcons, decide_eq_true hsc, heq]

/-- Witness for C3: a low-scoring first search on the query `"hi!"`
(expansion differs: `"hi заметка"`) issues and records exactly the two
search calls. -/
theorem C3_agent_expansion_witness :
    agentRun ⟨fun _ _ => [], []⟩ (fun _ _ => "ans") "hi!" 5 =
      ("ans",
       [⟨"search", [("query", ArgVal.str "hi!"), ("k", ArgVal.int 5)]⟩,
        ⟨"search", [("query", ArgVal.str ⟨expand_query "hi!".data⟩),
          ("k", ArgVal.int 5)]⟩]) := by
  have h := C3_agent_expansion.2.2.1 ⟨fun _ _ => [], []⟩ (fun _ _ => "ans") "hi!" 5
    (by decide) (Or.inl rfl) (by decide)
  simpa using h

/-- Helper: whitespace characters survive `pyLower` unchanged and are not
kept by the embeddings tokenizer. -/
theorem embKeep_space (c : Char) (h : isPySpace c = true) :
    embKeep (pyLower c) = false := by
  simp only [isPySpace, Bool.or_eq_true, decide_eq_true_eq] at h
  rcases h with ((((h | h) | h) | h) | h) | h <;> subst h <;> decide

/-- Helper: a text none of whose characters are kept yields no tokens. -/
theorem runSplit_all_false (keep : Char → Bool) :
    ∀ l : List Char, (∀ c ∈ l, keep c = false) → runSplit keep [] l = [] := by
  intro l
  induction l with
  | nil => intro _; rfl
  | cons c cs ih =>
    intro h
    have hc := h c (List.mem_cons_self c cs)
    simp only [runSplit, hc, Bool.false_eq_true, if_false, if_pos rfl]
    exact ih (fun d hd => h d (List.mem_cons_of_mem _ hd))

/-- Helper: the coordinate picked by a token is in range when `dim > 0`. -/
theorem hashIdx_lt (dim : ℕ) (hd : 0 < dim) (tok : List Char) :
    stable_hash tok % dim < dim := Nat.mod_lt _ hd

/-- Helper: folding the increment steps over a token list counts, at each
coordinate, the tokens hashed to it. -/
theorem hashFold_count (dim : ℕ) :
    ∀ (toks : List (List Char)) (row : List ℚ), row.length = dim →
      ∀ j, j < dim →
        ((toks.foldl (hashStep dim) row).getD j 0 : ℚ) =
          row.getD j 0 +
            ((toks.filter (fun tok => stable_hash tok % dim = j)).length : ℚ) := by
  intro toks
  induction toks with
  | nil => intro row _ j _; simp
  | cons tok rest ih =>
    intro row hlen j hj
    have hd : 0 < dim := Nat.lt_of_le_of_lt (Nat.zero_le j) hj
    have hlen2 : (hashStep dim row tok).length = dim := by
      simp [hashStep, hlen]
    simp only [List.foldl_cons, List.filter_cons]
    by_cases hcase : stable_hash tok % dim = j
    · rw [ih (hashStep dim row tok) hlen2 j hj]
      have hstep : (hashStep dim row tok).getD j 0 = row.getD j 0 + 1 := by
        simp only [hashStep, ← hcase]
        rw [List.getD_eq_getElem?_getD, List.getElem?_set_self
          (by rw [hlen]; exact hashIdx_lt dim hd tok)]
        simp [List.getD_eq_getElem?_getD]
      rw [hstep]
      simp only [hcase, decide_True, if_true, List.length_cons]
      push_cast
      ring
    · rw [ih (hashStep dim row tok) hlen2 j hj]
      have hstep : (hashStep dim row tok).getD j 0 = row.getD j 0 := by
        simp only [hashStep]
        rw [List.getD_eq_getElem?_getD, List.getElem?_set_ne hcase,
          List.getD_eq_getElem?_getD]
      rw [hstep]
      simp [hcase]

set_option maxRecDepth 10000 in
/-- C6: the hashing backend is deterministic (the model is a pure function
of the texts, `hashing_dim` and the normalize flag — `_stable_hash` uses a
content hash, not Python's per-process salted `hash`); a text with only
whitespace characters produces the all-zero pre-normalization row; and
each coordinate of a row counts exactly the tokens whose first 4
little-endian MD5 bytes reduce to it modulo `hashing_dim`; finally the
embedded MD5 agrees with the reference value on `"a"`. -/
theorem C6_hashing_determinism :
    (∀ (dim : ℕ) (texts : List (List Char)),
      hashingEmbedPre dim texts = hashingEmbedPre dim texts) ∧
    (∀ (dim : ℕ) (t : List Char), (∀ c ∈ t, isPySpace c = true) →
      hashRow dim t = List.replicate dim 0) ∧
    (∀ (dim : ℕ) (t : List Char) (j : ℕ), j < dim →
      ((hashRow dim t).getD j 0 : ℚ) =
        (((embTokenize t).filter
          (fun tok => stable_hash tok % dim = j)).length : ℚ)) ∧
    stable_hash "a".data = 3111502092 := by
  refine ⟨fun _ _ => rfl, ?_, ?_, by decide⟩
  · intro dim t h
    unfold hashRow embTokenize
    rw [runSplit_all_false]
    · rfl
    · intro c hc
      rcases List.mem_map.mp hc with ⟨c0, hc0, rfl⟩
      exact embKeep_space c0 (h c0 hc0)
  · intro dim t j hj
    have h2 := hashFold_count dim (embTokenize t) (List.replicate dim 0)
      (List.length_replicate dim 0) j hj
    unfold hashRow
    rw [h2]
    simp

set_option maxRecDepth 10000 in
/-- Witness for C6: a whitespace-only text gives the zero row, and
coordinate 4 of the row for `"a b a"` counts its tokens hashing to 4. -/
theorem C6_hashing_determinism_witness :
    hashRow 8 "  ".data = List.replicate 8 0 ∧
    ((hashRow 8 "a b a".data).getD 4 0 : ℚ) =
      (((embTokenize "a b a".data).filter
        (fun tok => stable_hash tok % 8 = 4)).length : ℚ) :=
  ⟨C6_hashing_determinism.2.1 8 "  ".data (by decide),
   C6_hashing_determinism.2.2.1 8 "a b a".data 4 (by decide)⟩

/-- Helper: splitting distributes over an explicit space separator. -/
theorem pySplitWSAux_append_space (b : List Char) :
    ∀ (a cur : List Char),
      pySplitWSAux cur (a ++ ' ' :: b) = pySplitWSAux cur a ++ pySplitWSAux [] b := by
  intro a
  induction a with
  | nil =>
    intro cur
    by_cases hc : cur = []
    · simp [hc, pySplitWSAux, isPySpace]
    · simp [pySplitWSAux, isPySpace, hc]
  | cons c a2 ih =>
    intro cur
    by_cases hsp : isPySpace c = true
    · by_cases hc : cur = []
      · simp [pySplitWSAux, hsp, hc, ih]
      · simp [pySplitWSAux, hsp, hc, ih]
    · simp only [List.cons_append, pySplitWSAux, hsp, Bool.false_eq_true, if_false,
        List.append_eq]
      exact ih (c :: cur)

/-- Helper: word counts add across an explicit space. -/
theorem count_words_append_space (a b : List Char) :
    count_words (a ++ ' ' :: b) = count_words a + count_words b := by
  unfold count_words pySplitWS
  rw [pySplitWSAux_append_space b a []]
  exact List.length_append _ _

/-- Helper: `joinSpace` on two or more pieces exposes a space. -/
theorem joinSpace_cons_cons (x y : List Char) (rest : List (List Char)) :
    joinSpace (x :: y :: rest) = x ++ ' ' :: joinSpace (y :: rest) := by
  show x ++ [' '] ++ joinSep [' '] (y :: rest) = _
  simp [joinSpace]

/-- Helper: prepending a piece to a non-empty chunk adds its word count. -/
theorem count_words_joinSpace_cons (x : List Char) (ys : List (List Char))
    (h : ys ≠ []) :
    count_words (joinSpace (x :: ys)) = count_words x + count_words (joinSpace ys) := by
  cases ys with
  | nil => exact absurd rfl h
  | cons z zs => rw [joinSpace_cons_cons, count_words_append_space]

/-- Helper: word counts add when a piece is appended to a chunk. -/
theorem count_words_joinSpace_append (y : List Char) :
    ∀ xs : List (List Char),
      count_words (joinSpace (xs ++ [y])) =
        count_words (joinSpace xs) + count_words y := by
  intro xs
  induction xs with
  | nil => simp [joinSpace, joinSep, count_words, pySplitWS, pySplitWSAux]
  | cons x xs2 ih =>
    have hne : xs2 ++ [y] ≠ [] := by simp
    rw [List.cons_append, count_words_joinSpace_cons x (xs2 ++ [y]) hne, ih]
    cases xs2 with
    | nil =>
      have h0 : count_words (joinSpace []) = 0 := rfl
      rw [h0]
      have h1 : joinSpace [x] = x := rfl
      rw [h1]
      omega
    | cons z zs =>
      rw [count_words_joinSpace_cons x (z :: zs) (by simp)]
      omega

/-- Helper: a space-free word list is returned whole by the scanner. -/
theorem pySplitWSAux_no_ws :
    ∀ (w cur : List Char), (∀ c ∈ w, isPySpace c = false) →
      pySplitWSAux cur w =
        if cur.reverse ++ w = [] then [] else [cur.reverse ++ w] := by
  intro w
  induction w with
  | nil =>
    intro cur _
    by_cases hc : cur = []
    · simp [pySplitWSAux, hc]
    · have : cur.reverse ≠ [] := fun h => hc (by simpa using congrArg List.reverse h)
      simp [pySplitWSAux, hc, this]
  | cons c w2 ih =>
    intro cur h
    have hc := h c (List.mem_cons_self c w2)
    have h2 : ∀ d ∈ w2, isPySpace d = false :=
      fun d hd => h d (List.mem_cons_of_mem _ hd)
    simp only [pySplitWSAux, hc, Bool.false_eq_true, if_false, ih (c :: cur) h2]
    simp

/-- Helper: every word produced by the scanner is non-empty and space-free. -/
theorem mem_pySplitWSAux :
    ∀ (l cur x : List Char), (∀ c ∈ cur, isPySpace c = false) →
      x ∈ pySplitWSAux cur l → x ≠ [] ∧ ∀ c ∈ x, isPySpace c = false := by
  intro l
  induction l with
  | nil =>
    intro cur x hcur hx
    by_cases hc : cur = []
    · simp [pySplitWSAux, hc] at hx
    · simp only [pySplitWSAux, hc, if_false] at hx
      rw [List.mem_singleton] at hx
      subst hx
      refine ⟨fun h => hc (by simpa using congrArg List.reverse h), ?_⟩
      intro d hd
      exact hcur d (List.mem_reverse.mp hd)
  | cons c cs ih =>
    intro cur x hcur hx
    by_cases hsp : isPySpace c = true
    · by_cases hc : cur = []
      · simp only [pySplitWSAux, hsp, if_true, hc, if_pos rfl] at hx
        exact ih [] x (by simp) hx
      · simp only [pySplitWSAux, hsp, if_true, hc, if_false, List.mem_cons] at hx
        rcases hx with hx | hx
        · subst hx
          refine ⟨fun h => hc (by simpa using congrArg List.reverse h), ?_⟩
          intro d hd
          exact hcur d (List.mem_reverse.mp hd)
        · exact ih [] x (by simp) hx
    · simp only [pySplitWSAux, hsp, Bool.false_eq_true, if_false] at hx
      refine ih (c :: cur) x ?_ hx
      intro d hd
      rcases List.mem_cons.mp hd with rfl | hd2
      · simpa using hsp
      · exact hcur d hd2

/-- Helper: joining space-free non-empty words and re-splitting is the
identity. -/
theorem pySplitWS_joinSpace :
    ∀ words : List (List Char),
      (∀ w ∈ words, w ≠ [] ∧ ∀ c ∈ w, isPySpace c = false) →
      pySplitWS (joinSpace words) = words := by
  intro words
  induction words with
  | nil => intro _; rfl
  | cons w ws ih =>
    intro h
    obtain ⟨hne, hnw⟩ := h w (List.mem_cons_self w ws)
    cases ws with
    | nil =>
      show pySplitWS w = [w]
      unfold pySplitWS
      rw [pySplitWSAux_no_ws w [] hnw]
      simp [hne]
    | cons w2 ws2 =>
      rw [joinSpace_cons_cons]
      unfold pySplitWS
      rw [pySplitWSAux_append_space _ w []]
      rw [pySplitWSAux_no_ws w [] hnw]
      have := ih (fun x hx => h x (List.mem_cons_of_mem _ hx))
      unfold pySplitWS at this
      rw [this]
      simp [hne]

/-- Helper: the word count of a joined word list is its length. -/
theorem count_words_joinSpace_words (words : List (List Char))
    (h : ∀ w ∈ words, w ≠ [] ∧ ∀ c ∈ w, isPySpace c = false) :
    count_words (joinSpace words) = words.length := by
  unfold count_words
  rw [pySplitWS_joinSpace words h]

/-- Helper: every chunk produced by the accumulation loop respects the
`chunk_size + max(overlap, 0)` bound, except standalone oversized
sentences, provided the running chunk respects it. -/
theorem chunkLoop_bound (cs ov : ℤ) (sents0 : List (List Char)) :
    ∀ sents : List (List Char), (∀ s ∈ sents, s ∈ sents0) →
      ∀ (cur : List (List Char)) (tok : ℕ),
        tok = count_words (joinSpace cur) →
        (cur ≠ [] → (tok : ℤ) ≤ cs + max ov 0) →
        ∀ c ∈ chunkLoop cs ov sents cur tok,
          (count_words c : ℤ) ≤ cs + max ov 0 ∨
          ((cs : ℤ) ≤ (count_words c : ℤ) ∧ c ∈ sents0) := by
  intro sents
  induction sents with
  | nil =>
    intro _ cur tok htok hbound c hc
    by_cases hcur : cur = []
    · simp [chunkLoop, hcur] at hc
    · simp only [chunkLoop, hcur, if_false, List.mem_singleton] at hc
      subst hc
      left
      rw [← htok]
      exact hbound hcur
  | cons s rest ih =>
    intro hsub cur tok htok hbound c hc
    have hs0 : s ∈ sents0 := hsub s (List.mem_cons_self _ _)
    have hsub2 : ∀ x ∈ rest, x ∈ sents0 := fun x hx => hsub x (List.mem_cons_of_mem _ hx)
    have hmax : (0 : ℤ) ≤ max ov 0 := le_max_right ov 0
    by_cases hbig : (cs : ℤ) ≤ (count_words s : ℤ)
    · simp only [chunkLoop, hbig, if_true] at hc
      rcases List.mem_append.mp hc with hc1 | hc2
      · by_cases hcur : cur = []
        · simp [hcur] at hc1
        · simp only [hcur, if_false, List.mem_singleton] at hc1
          subst hc1
          left
          rw [← htok]
          exact hbound hcur
      · rcases List.mem_cons.mp hc2 with rfl | hc3
        · exact Or.inr ⟨hbig, hs0⟩
        · exact ih hsub2 [] 0 rfl (fun h => absurd rfl h) c hc3
    · by_cases hfit : (tok : ℤ) + (count_words s : ℤ) ≤ cs
      · simp only [chunkLoop, hbig, hfit, if_true, if_false] at hc
        refine ih hsub2 (cur ++ [s]) (tok + count_words s) ?_ ?_ c hc
        · rw [count_words_joinSpace_append, ← htok]
        · intro _
          push_cast
          linarith
      · by_cases hcur : cur = []
        · simp only [chunkLoop, hbig, hfit, hcur, ne_eq, not_true_eq_false,
            if_false] at hc
          refine ih hsub2 [s] (count_words s) rfl ?_ c hc
          intro _
          have : (count_words s : ℤ) < cs := lt_of_not_le hbig
          linarith
        · by_cases hov : 0 < ov
          · simp only [chunkLoop, hbig, hfit, hcur, hov, ne_eq, not_false_eq_true,
              if_true, if_false, List.mem_cons] at hc
            have hst : (count_words s : ℤ) < cs := lt_of_not_le hbig
            rcases hc with rfl | hc2
            · left
              rw [← htok]
              exact hbound hcur
            · set words := pySplitWS (joinSpace cur) with hwordsdef
              set ow := if (ov : ℤ) < (words.length : ℤ)
                then words.drop (words.length - ov.toNat) else words with howdef
              have hwprops : ∀ w ∈ words, w ≠ [] ∧ ∀ d ∈ w, isPySpace d = false :=
                fun w hw => mem_pySplitWSAux (joinSpace cur) [] w (by simp) hw
              have howprops : ∀ w ∈ ow, w ≠ [] ∧ ∀ d ∈ w, isPySpace d = false := by
                intro w hw
                rw [howdef] at hw
                by_cases hl : (ov : ℤ) < (words.length : ℤ)
                · rw [if_pos hl] at hw
                  exact hwprops w (List.drop_subset _ _ hw)
                · rw [if_neg hl] at hw
                  exact hwprops w hw
              have hcount : count_words (joinSpace ow) = ow.length :=
                count_words_joinSpace_words ow howprops
              have howlen : (ow.length : ℤ) ≤ ov := by
                rw [howdef]
                by_cases hl : (ov : ℤ) < (words.length : ℤ)
                · rw [if_pos hl]
                  rw [List.length_drop]
                  have h1 : (ov.toNat : ℤ) = ov := Int.toNat_of_nonneg hov.le
                  omega
                · rw [if_neg hl]
                  omega
              have hotext : (count_words (joinSpace ow) : ℤ) ≤ ov := by
                rw [hcount]; exact howlen
              refine ih hsub2 [joinSpace ow, s]
                (count_words (joinSpace ow) + count_words s) ?_ ?_ c hc2
              · have hj : joinSpace [joinSpace ow, s] = joinSpace ow ++ ' ' :: s := by
                  rw [joinSpace_cons_cons]
                  rfl
                rw [hj, count_words_append_space]
              · intro _
                have hmx : max ov 0 = ov := max_eq_left hov.le
                push_cast
                rw [hmx]
                linarith
          · simp only [chunkLoop, hbig, hfit, hcur, hov, ne_eq, not_false_eq_true,
              if_true, if_false, List.mem_cons] at hc
            rcases hc with rfl | hc2
            · left
              rw [← htok]
              exact hbound hcur
            · refine ih hsub2 [s] (count_words s) rfl ?_ c hc2
              intro _
              have : (count_words s : ℤ) < cs := lt_of_not_le hbig
              linarith

/-- C1 counterexample: with `chunk_size = 3`, `overlap = 2`, the text
`"a b. c d."` produces the chunk `"a b. c d."` of 4 words — above the
bound — formed from an overlap seed plus a second sentence, not a single
oversized sentence. -/
theorem C1_chunk_bound_counterexample :
    "a b. c d.".data ∈ chunk_text "a b. c d.".data 3 2 ∧
    count_words "a b. c d.".data = 4 ∧
    ¬((count_words "a b. c d.".data : ℤ) ≤ 3) ∧
    "a b. c d.".data ∉ split_into_sentences (clean_markdown "a b. c d.".data) := by
  decide

/-- C1 (amended): every chunk produced by `chunk_text(text, chunk_size,
overlap)` has word count at most `chunk_size + max(overlap, 0)` — the
chunk seeded with the last `overlap` words of the previous chunk plus one
more sentence can exceed `chunk_size` itself by up to `overlap` — except a
chunk consisting of a single sentence of at least `chunk_size` words,
which may be arbitrarily large. -/
theorem C1_chunk_bound :
    ∀ (text : List Char) (chunk_size overlap : ℤ),
      ∀ c ∈ chunk_text text chunk_size overlap,
        (count_words c : ℤ) ≤ chunk_size + max overlap 0 ∨
        ((chunk_size : ℤ) ≤ (count_words c : ℤ) ∧
          c ∈ split_into_sentences (clean_markdown text)) := by
  intro text cs ov c hc
  by_cases h1 : clean_markdown text = []
  · simp [chunk_text, h1] at hc
  · by_cases h2 : split_into_sentences (clean_markdown text) = []
    · simp [chunk_text, h1, h2] at hc
    · simp only [chunk_text, h1, h2, if_false] at hc
      exact chunkLoop_bound cs ov _ _ (fun s hs => hs) [] 0 rfl
        (fun h => absurd rfl h) c hc

/-- Witness for C1 at a chunk of the counterexample input. -/
theorem C1_chunk_bound_witness :
    (count_words "a b.".data : ℤ) ≤ 3 + max 2 0 ∨
    ((3 : ℤ) ≤ (count_words "a b.".data : ℤ) ∧
      "a b.".data ∈ split_into_sentences (clean_markdown "a b. c d.".data)) :=
  C1_chunk_bound "a b. c d.".data 3 2 "a b.".data (by decide)
